import Mathlib

/-!
Verification of the Merkle-Patricia trie node codec, the journaled commit
helper, and the precompiled-builtin helpers of this repository.

Bytes are modelled as natural numbers (`List Nat`); machine-integer
arithmetic carries an explicit modulus where overflow matters.

The node codec (`Node`, `Node.encoded`, `Node.decoded`,
`Node.encoded_and_added`) and the builtin helpers (`ecrecover_exec`,
`from_named_linear_cost`) are translated from the source
(`util/src/trie/node.rs`, `ethcore/src/builtin.rs`).  The RLP layer, the
`NibbleSlice` hex-prefix codec, the `Journal` and the cryptographic
primitives are not part of the given sources (only their callers are);
those definitions are modelled from the spec and say so in their doc
comments.
-/

namespace Parity

/-- Modelled from the spec: the canonical list-or-string serialization is a
recursive length-prefixed binary encoding (the repository's RLP layer, whose
source is absent).  A byte string is a length-tagged prefix (tag `0`, its
length) followed by its raw bytes. -/
def encodeStr (s : List Nat) : List Nat := 0 :: s.length :: s

/-- Modelled from the spec: a list is a length-tagged prefix (tag `1`, the
total length of the concatenated element encodings) followed by that
concatenation. -/
def encodeListPayload (p : List Nat) : List Nat := 1 :: p.length :: p

/-- A well-formed serialized item (string or list) sitting at the head of a
buffer: a tag byte, a length byte, and exactly that many payload bytes. -/
def isChunk (c : List Nat) : Bool :=
  match c with
  | t :: n :: p => (t == 0 || t == 1) && p.length == n
  | _ => false

/-- Payload bytes of a serialized item (the `data()` view of an RLP item). -/
def chunkData : List Nat → List Nat
  | _ :: _ :: p => p
  | _ => []

/-- Modelled from the spec: split a list payload into the raw encodings of
its elements (the item iteration of the absent RLP layer).  Fuel-driven so
that the definition is structural; `splitChunks` supplies sufficient fuel. -/
def splitChunksF : Nat → List Nat → Option (List (List Nat))
  | _, [] => some []
  | 0, _ :: _ => none
  | _ + 1, [_] => none
  | fuel + 1, t :: n :: rest =>
    if (t = 0 ∨ t = 1) ∧ n ≤ rest.length then
      match splitChunksF fuel (rest.drop n) with
      | some cs => some ((t :: n :: rest.take n) :: cs)
      | none => none
    else none

/-- Split a full list payload into raw element encodings. -/
def splitChunks (l : List Nat) : Option (List (List Nat)) := splitChunksF l.length l

/-- Pack an even-length run of nibbles two to a byte. -/
def packNibbles : List Nat → List Nat
  | a :: b :: rest => (16 * a + b) :: packNibbles rest
  | _ => []

/-- Unpack bytes into their high and low nibbles. -/
def unpackNibbles : List Nat → List Nat
  | [] => []
  | c :: rest => c / 16 :: c % 16 :: unpackNibbles rest

namespace NibbleSlice

/-- Modelled from the spec: hex-prefix encoding of a nibble path
(`NibbleSlice::encoded`, whose source is absent).  The first byte carries
the leaf flag (bit 5) and the parity flag (bit 4) in its high nibble and,
for odd lengths, the first nibble in its low nibble; the remaining nibbles
are packed two to a byte. -/
def encoded (path : List Nat) (leaf : Bool) : List Nat :=
  let f : Nat := if leaf then 2 else 0
  if path.length % 2 = 0 then
    16 * f :: packNibbles path
  else
    match path with
    | [] => [16 * f]
    | a :: rest => (16 * (f + 1) + a) :: packNibbles rest

/-- Modelled from the spec: hex-prefix decoding
(`NibbleSlice::from_encoded`, whose source is absent).  Reads both flags
from the first byte's high nibble, takes the first byte's low nibble as a
leading nibble when the parity flag is set, and unpacks the rest.  The
absent source indexes the first byte unconditionally, so the empty buffer
is modelled as a failure. -/
def from_encoded : List Nat → Option (List Nat × Bool)
  | [] => none
  | b :: rest =>
    let leaf := b / 32 % 2 == 1
    let odd := b / 16 % 2 == 1
    some ((if odd then [b % 16] else []) ++ unpackNibbles rest, leaf)

end NibbleSlice

/-- Type of node in the trie, from `util/src/trie/node.rs`.  Borrowed byte
slices become `List Nat`; the 16-entry child array of `Branch` becomes a
list whose length-16 invariant is carried by hypotheses. -/
inductive Node where
  | empty : Node
  | leaf : List Nat → List Nat → Node
  | extension : List Nat → List Nat → Node
  | branch : List (List Nat) → Option (List Nat) → Node
deriving DecidableEq

/-- Outcome of `Node::decoded`.  The source function returns a bare `Node`
and aborts via `panic!("Rlp is not valid.")` on unrecognized shapes; the
`panic` constructor models that abort.  `rlpFail` models a failure inside
the absent RLP layer itself (bytes that are not a well-formed item). -/
inductive DecodeResult where
  | ok : Node → DecodeResult
  | rlpFail : DecodeResult
  | panic : String → DecodeResult
deriving DecidableEq

/-- The loop `for i in 0..16 { nodes[i] = r.at(i).as_raw() }` of
`Node::decoded`, running over an explicit initial array `init` standing for
the `unsafe`-uninitialized `[&[u8]; 16]` it starts from. -/
def fillChildren (init chunks : List (List Nat)) : List (List Nat) :=
  (List.range 16).foldl (fun nodes i => nodes.set i (chunks.getD i [])) init

/-- Dispatch of `Node::decoded` on the item count of a decoded list, from
`util/src/trie/node.rs` lines 26-42: a 2-list is a leaf or extension
according to the hex-prefix flag, a 17-list is a branch (children filled by
the loop starting from `init`, value empty-string means absent), anything
else hits `panic!("Rlp is not valid.")`. -/
def decodeShape (init chunks : List (List Nat)) : DecodeResult :=
  if chunks.length = 2 then
    match NibbleSlice.from_encoded (chunkData (chunks.getD 0 [])) with
    | none => .rlpFail
    | some (path, true) => .ok (.leaf path (chunkData (chunks.getD 1 [])))
    | some (path, false) => .ok (.extension path (chunks.getD 1 []))
  else if chunks.length = 17 then
    let v := chunks.getD 16 []
    .ok (.branch (fillChildren init chunks)
      (if v = encodeStr [] then none else some (chunkData v)))
  else .panic "Rlp is not valid."

/-- `Node::decoded` parameterized by the initial contents of the branch
children array (the source leaves it uninitialized).  A string item of
length 0 is `Empty`, a nonempty string is an unrecognized shape, a list
dispatches on its item count. -/
def Node.decodedWith (init : List (List Nat)) (bytes : List Nat) : DecodeResult :=
  match bytes with
  | 0 :: n :: payload =>
    if payload.length = n then
      if n = 0 then .ok .empty else .panic "Rlp is not valid."
    else .rlpFail
  | 1 :: n :: payload =>
    if payload.length = n then
      match splitChunks payload with
      | some chunks => decodeShape init chunks
      | none => .rlpFail
    else .rlpFail
  | _ => .rlpFail

/-- `Node::decoded` from `util/src/trie/node.rs`, with an arbitrary fixed
choice for the uninitialized children array. -/
def Node.decoded (bytes : List Nat) : DecodeResult :=
  Node.decodedWith (List.replicate 16 []) bytes

/-- `Node::encoded` from `util/src/trie/node.rs`: the direct RLP of the
node.  `append` of a byte slice is string encoding, `append_raw` splices
raw item bytes, `append_empty_data` is the empty-string item. -/
def Node.encoded : Node → List Nat
  | .leaf path value =>
    encodeListPayload (encodeStr (NibbleSlice.encoded path true) ++ encodeStr value)
  | .extension path raw_rlp =>
    encodeListPayload (encodeStr (NibbleSlice.encoded path false) ++ raw_rlp)
  | .branch nodes value =>
    encodeListPayload (nodes.flatten ++
      (match value with | some n => encodeStr n | none => encodeStr []))
  | .empty => encodeStr []

/-- The journal: pending `(content hash, raw encoding)` pairs of one commit
cycle. -/
structure Journal where
  entries : List (List Nat × List Nat)
deriving DecidableEq

/-- Modelled from the spec: `Journal::new_node` (source absent) computes
the content hash of the raw encoding, stores the mapping if not already
present (idempotent), and emits the 32-byte hash as the child reference.
The hash function itself is an external collaborator and is a parameter. -/
def Journal.new_node (hash : List Nat → List Nat) (j : Journal) (node : List Nat) :
    List Nat × Journal :=
  let h := hash node
  (h, if (h, node) ∈ j.entries then j else ⟨(h, node) :: j.entries⟩)

/-- `Node::encoded_and_added` from `util/src/trie/node.rs`: serialize the
node exactly as `encoded` does, return it unchanged if its length is in
`0 ... 31`, otherwise hand it to `Journal::new_node` and return what that
wrote to the output stream. -/
def Node.encoded_and_added (hash : List Nat → List Nat) (n : Node) (journal : Journal) :
    List Nat × Journal :=
  let node :=
    match n with
    | .leaf path value =>
      encodeListPayload (encodeStr (NibbleSlice.encoded path true) ++ encodeStr value)
    | .extension path raw_rlp =>
      encodeListPayload (encodeStr (NibbleSlice.encoded path false) ++ raw_rlp)
    | .branch nodes value =>
      encodeListPayload (nodes.flatten ++
        (match value with | some n => encodeStr n | none => encodeStr []))
    | .empty => encodeStr []
  if node.length ≤ 31 then (node, journal)
  else Journal.new_node hash journal node

/-- Structural well-formedness of a constructed node: nibble paths hold
nibbles, raw child references are single well-formed serialized items, and
a branch has exactly 16 children.  These are the invariants the Rust types
(`NibbleSlice`, `[&[u8]; 16]`, references produced by the codec) enforce by
construction. -/
def Node.wf : Node → Prop
  | .empty => True
  | .leaf path _ => ∀ x ∈ path, x < 16
  | .extension path child => (∀ x ∈ path, x < 16) ∧ isChunk child = true
  | .branch children value =>
    children.length = 16 ∧ (∀ c ∈ children, isChunk c = true) ∧ value ≠ some []

/-! Helper lemmas about the serialization layer. -/

theorem isChunk_encodeStr (s : List Nat) : isChunk (encodeStr s) = true := by
  simp [isChunk, encodeStr]

theorem chunkData_encodeStr (s : List Nat) : chunkData (encodeStr s) = s := rfl

theorem chunk_shape {c : List Nat} (h : isChunk c = true) :
    ∃ t n p, c = t :: n :: p ∧ (t = 0 ∨ t = 1) ∧ p.length = n := by
  match c, h with
  | t :: n :: p, h =>
    simp only [isChunk, Bool.and_eq_true, Bool.or_eq_true, beq_iff_eq] at h
    exact ⟨t, n, p, rfl, h.1, h.2⟩

theorem chunk_ne_nil {c : List Nat} (h : isChunk c = true) : c ≠ [] := by
  obtain ⟨t, n, p, rfl, -, -⟩ := chunk_shape h
  simp

theorem splitChunksF_flatten : ∀ (cs : List (List Nat)) (fuel : Nat),
    (∀ c ∈ cs, isChunk c = true) → cs.length ≤ fuel →
    splitChunksF fuel cs.flatten = some cs
  | [], fuel, _, _ => by cases fuel <;> rfl
  | c :: cs, fuel, h, hf => by
    obtain ⟨t, n, p, rfl, ht, hp⟩ := chunk_shape (h c (by simp))
    cases fuel with
    | zero => simp at hf
    | succ f =>
      have IH := splitChunksF_flatten cs f (fun x hx => h x (by simp [hx]))
        (by simpa using hf)
      simp only [List.flatten_cons, List.cons_append]
      rw [splitChunksF]
      rw [if_pos ⟨ht, by simp [← hp]⟩]
      rw [show p ++ cs.flatten = p ++ cs.flatten from rfl, ← hp,
        List.drop_left, List.take_left, IH]

theorem length_le_flatten_length {cs : List (List Nat)}
    (h : ∀ c ∈ cs, isChunk c = true) : cs.length ≤ cs.flatten.length := by
  induction cs with
  | nil => simp
  | cons c cs ih =>
    have hc := chunk_ne_nil (h c (by simp))
    have : 1 ≤ c.length := List.length_pos.mpr hc
    have := ih (fun x hx => h x (by simp [hx]))
    simp only [List.flatten_cons, List.length_append, List.length_cons]
    omega

theorem splitChunks_flatten (cs : List (List Nat))
    (h : ∀ c ∈ cs, isChunk c = true) : splitChunks cs.flatten = some cs :=
  splitChunksF_flatten cs cs.flatten.length h (length_le_flatten_length h)

/-! Helper lemmas about the hex-prefix codec. -/

theorem unpack_pack : ∀ (l : List Nat), (∀ x ∈ l, x < 16) → l.length % 2 = 0 →
    unpackNibbles (packNibbles l) = l
  | [], _, _ => rfl
  | [a], _, hp => by simp at hp
  | a :: b :: rest, h, hp => by
    have ha : a < 16 := h a (by simp)
    have hb : b < 16 := h b (by simp)
    have IH := unpack_pack rest (fun x hx => h x (by simp [hx]))
      (by simp only [List.length_cons] at hp; omega)
    have e1 : (16 * a + b) / 16 = a := by omega
    have e2 : (16 * a + b) % 16 = b := by omega
    simp [packNibbles, unpackNibbles, e1, e2, IH]

theorem hp_roundtrip (path : List Nat) (leaf : Bool) (h : ∀ x ∈ path, x < 16) :
    NibbleSlice.from_encoded (NibbleSlice.encoded path leaf) = some (path, leaf) := by
  unfold NibbleSlice.encoded
  by_cases hpar : path.length % 2 = 0
  · rw [if_pos hpar]
    cases leaf <;> simp [NibbleSlice.from_encoded, unpack_pack path h hpar]
  · rw [if_neg hpar]
    cases path with
    | nil => simp at hpar
    | cons a rest =>
      have ha : a < 16 := h a (by simp)
      have hrest : ∀ x ∈ rest, x < 16 := fun x hx => h x (by simp [hx])
      have hlen : rest.length % 2 = 0 := by
        simp only [List.length_cons] at hpar; omega
      cases leaf
      · have e1 : (16 * (0 + 1) + a) / 32 % 2 = 0 := by omega
        have e2 : (16 * (0 + 1) + a) / 16 % 2 = 1 := by omega
        have e3 : (16 * (0 + 1) + a) % 16 = a := by omega
        have e4 : a / 16 = 0 := Nat.div_eq_of_lt ha
        have e5 : a / 32 = 0 := Nat.div_eq_of_lt (by omega)
        simp [NibbleSlice.from_encoded, e1, e2, e3, e4, e5,
          unpack_pack rest hrest hlen]
      · have e1 : (16 * (2 + 1) + a) / 32 % 2 = 1 := by omega
        have e2 : (16 * (2 + 1) + a) / 16 % 2 = 1 := by omega
        have e3 : (16 * (2 + 1) + a) % 16 = a := by omega
        have e4 : a / 16 = 0 := Nat.div_eq_of_lt ha
        have e5 : (16 + a) / 32 = 0 := Nat.div_eq_of_lt (by omega)
        simp [NibbleSlice.from_encoded, e1, e2, e3, e4, e5,
          unpack_pack rest hrest hlen]

/-! Destructuring of fixed-length lists, mirroring the fixed-size arrays of
the source. -/

theorem exists_len16 (l : List (List Nat)) (h : l.length = 16) :
    ∃ b0 b1 b2 b3 b4 b5 b6 b7 b8 b9 b10 b11 b12 b13 b14 b15,
      l = [b0, b1, b2, b3, b4, b5, b6, b7, b8, b9, b10, b11, b12, b13, b14, b15] := by
  rcases l with _ | ⟨b0, l⟩; · simp at h
  rcases l with _ | ⟨b1, l⟩; · simp at h
  rcases l with _ | ⟨b2, l⟩; · simp at h
  rcases l with _ | ⟨b3, l⟩; · simp at h
  rcases l with _ | ⟨b4, l⟩; · simp at h
  rcases l with _ | ⟨b5, l⟩; · simp at h
  rcases l with _ | ⟨b6, l⟩; · simp at h
  rcases l with _ | ⟨b7, l⟩; · simp at h
  rcases l with _ | ⟨b8, l⟩; · simp at h
  rcases l with _ | ⟨b9, l⟩; · simp at h
  rcases l with _ | ⟨b10, l⟩; · simp at h
  rcases l with _ | ⟨b11, l⟩; · simp at h
  rcases l with _ | ⟨b12, l⟩; · simp at h
  rcases l with _ | ⟨b13, l⟩; · simp at h
  rcases l with _ | ⟨b14, l⟩; · simp at h
  rcases l with _ | ⟨b15, l⟩; · simp at h
  rcases l with _ | ⟨b16, l⟩
  · exact ⟨b0, b1, b2, b3, b4, b5, b6, b7, b8, b9, b10, b11, b12, b13, b14, b15, rfl⟩
  · simp at h

theorem exists_len17 (l : List (List Nat)) (h : l.length = 17) :
    ∃ c0 c1 c2 c3 c4 c5 c6 c7 c8 c9 c10 c11 c12 c13 c14 c15 c16,
      l = [c0, c1, c2, c3, c4, c5, c6, c7, c8, c9, c10, c11, c12, c13, c14, c15, c16] := by
  rcases l with _ | ⟨c0, l⟩; · simp at h
  obtain ⟨b0, b1, b2, b3, b4, b5, b6, b7, b8, b9, b10, b11, b12, b13, b14, b15, rfl⟩ :=
    exists_len16 l (by simp only [List.length_cons] at h; omega)
  exact ⟨c0, b0, b1, b2, b3, b4, b5, b6, b7, b8, b9, b10, b11, b12, b13, b14, b15, rfl⟩

theorem fillChildren_concrete (init : List (List Nat)) (h : init.length = 16)
    (c0 c1 c2 c3 c4 c5 c6 c7 c8 c9 c10 c11 c12 c13 c14 c15 c16 : List Nat) :
    fillChildren init
        [c0, c1, c2, c3, c4, c5, c6, c7, c8, c9, c10, c11, c12, c13, c14, c15, c16]
      = [c0, c1, c2, c3, c4, c5, c6, c7, c8, c9, c10, c11, c12, c13, c14, c15] := by
  obtain ⟨i0, i1, i2, i3, i4, i5, i6, i7, i8, i9, i10, i11, i12, i13, i14, i15, rfl⟩ :=
    exists_len16 init h
  rfl

theorem decodeShape_indep (init1 init2 chunks : List (List Nat))
    (h1 : init1.length = 16) (h2 : init2.length = 16) :
    decodeShape init1 chunks = decodeShape init2 chunks := by
  unfold decodeShape
  by_cases hc2 : chunks.length = 2
  · rw [if_pos hc2, if_pos hc2]
  · rw [if_neg hc2, if_neg hc2]
    by_cases hc17 : chunks.length = 17
    · rw [if_pos hc17, if_pos hc17]
      obtain ⟨c0, c1, c2, c3, c4, c5, c6, c7, c8, c9, c10, c11, c12, c13, c14, c15, c16,
        rfl⟩ := exists_len17 chunks hc17
      rw [fillChildren_concrete init1 h1, fillChildren_concrete init2 h2]
    · rw [if_neg hc17, if_neg hc17]

theorem decoded_encodeListPayload (cs : List (List Nat))
    (h : ∀ c ∈ cs, isChunk c = true) :
    Node.decoded (encodeListPayload cs.flatten) = decodeShape (List.replicate 16 []) cs := by
  show (if cs.flatten.length = cs.flatten.length then
      match splitChunks cs.flatten with
      | some chunks => decodeShape (List.replicate 16 []) chunks
      | none => DecodeResult.rlpFail
    else DecodeResult.rlpFail) = decodeShape (List.replicate 16 []) cs
  rw [if_pos rfl, splitChunks_flatten cs h]

theorem flatten_snoc (cs : List (List Nat)) (v : List Nat) :
    cs.flatten ++ v = (cs ++ [v]).flatten := by simp

theorem decodeShape_pair (init : List (List Nat)) (c0 c1 : List Nat) :
    decodeShape init [c0, c1] =
      match NibbleSlice.from_encoded (chunkData c0) with
      | none => .rlpFail
      | some (path, true) => .ok (.leaf path (chunkData c1))
      | some (path, false) => .ok (.extension path c1) := rfl

theorem decodeShape_17 (init : List (List Nat)) (h : init.length = 16)
    (c0 c1 c2 c3 c4 c5 c6 c7 c8 c9 c10 c11 c12 c13 c14 c15 c16 : List Nat) :
    decodeShape init
        [c0, c1, c2, c3, c4, c5, c6, c7, c8, c9, c10, c11, c12, c13, c14, c15, c16]
      = .ok (.branch [c0, c1, c2, c3, c4, c5, c6, c7, c8, c9, c10, c11, c12, c13, c14, c15]
          (if c16 = encodeStr [] then none else some (chunkData c16))) := by
  unfold decodeShape
  rw [if_neg (by simp), if_pos (by simp)]
  rw [fillChildren_concrete init h]
  rfl

/-- Claim C1, amended.  Round-trip of the node codec: for every constructed
node — nibble paths holding nibbles, child references being well-formed
single serialized items, a branch having its 16 children and, when its
value is present, a non-empty value — decoding the direct encoding yields
the node back.  (A present-but-empty branch value is the one shape the
source conflates with an absent value; see the counterexample.) -/
theorem decoded_encoded_roundtrip (n : Node) (h : n.wf) :
    Node.decoded n.encoded = .ok n := by
  cases n with
  | empty => rfl
  | leaf path value =>
    have hpath : ∀ x ∈ path, x < 16 := h
    rw [Node.encoded,
      show encodeStr (NibbleSlice.encoded path true) ++ encodeStr value
          = ([encodeStr (NibbleSlice.encoded path true), encodeStr value]
              : List (List Nat)).flatten from by simp,
      decoded_encodeListPayload _ (by
        intro c hc
        simp only [List.mem_cons, List.not_mem_nil, or_false] at hc
        rcases hc with rfl | rfl <;> exact isChunk_encodeStr _),
      decodeShape_pair, chunkData_encodeStr, hp_roundtrip path true hpath]
    rfl
  | extension path child =>
    obtain ⟨hpath, hchild⟩ := h
    rw [Node.encoded,
      show encodeStr (NibbleSlice.encoded path false) ++ child
          = ([encodeStr (NibbleSlice.encoded path false), child]
              : List (List Nat)).flatten from by simp,
      decoded_encodeListPayload _ (by
        intro c hc
        simp only [List.mem_cons, List.not_mem_nil, or_false] at hc
        rcases hc with rfl | rfl
        · exact isChunk_encodeStr _
        · exact hchild),
      decodeShape_pair, chunkData_encodeStr, hp_roundtrip path false hpath]
  | branch children value =>
    obtain ⟨hlen, hch, hval⟩ := h
    have hmem : ∀ (w : List Nat), ∀ c ∈ children ++ [encodeStr w], isChunk c = true := by
      intro w c hc
      rcases List.mem_append.mp hc with hc | hc
      · exact hch c hc
      · rw [List.mem_singleton.mp hc]; exact isChunk_encodeStr _
    cases value with
    | none =>
      rw [Node.encoded]
      rw [flatten_snoc, decoded_encodeListPayload _ (hmem [])]
      obtain ⟨b0, b1, b2, b3, b4, b5, b6, b7, b8, b9, b10, b11, b12, b13, b14, b15,
        rfl⟩ := exists_len16 children hlen
      simp only [List.cons_append, List.nil_append]
      rw [decodeShape_17 _ (by rfl), if_pos rfl]
    | some v =>
      have hv : v ≠ [] := fun e => hval (by rw [e])
      have hne : encodeStr v ≠ encodeStr [] := fun e => hv (congrArg chunkData e)
      rw [Node.encoded]
      rw [flatten_snoc, decoded_encodeListPayload _ (hmem v)]
      obtain ⟨b0, b1, b2, b3, b4, b5, b6, b7, b8, b9, b10, b11, b12, b13, b14, b15,
        rfl⟩ := exists_len16 children hlen
      simp only [List.cons_append, List.nil_append]
      rw [decodeShape_17 _ (by rfl), if_neg hne, chunkData_encodeStr]

theorem mem_append_encodeStr {children : List (List Nat)}
    (hch : ∀ c ∈ children, isChunk c = true) (w : List Nat) :
    ∀ c ∈ children ++ [encodeStr w], isChunk c = true := by
  intro c hc
  rcases List.mem_append.mp hc with hc | hc
  · exact hch c hc
  · rw [List.mem_singleton.mp hc]; exact isChunk_encodeStr _

/-- Claim C9.  The decode loop assigns all 16 branch-children slots before
the array is returned: decoding is independent of the contents the
uninitialized array starts with, so no caller can observe them. -/
theorem decodedWith_indep (init1 init2 : List (List Nat)) (bytes : List Nat)
    (h1 : init1.length = 16) (h2 : init2.length = 16) :
    Node.decodedWith init1 bytes = Node.decodedWith init2 bytes := by
  rcases bytes with _ | ⟨b, bytes⟩
  · rfl
  rcases bytes with _ | ⟨n, payload⟩
  · rcases b with _ | (_ | b) <;> rfl
  rcases b with _ | b
  · rfl
  rcases b with _ | b
  · show (if payload.length = n then
        match splitChunks payload with
        | some chunks => decodeShape init1 chunks
        | none => DecodeResult.rlpFail
      else DecodeResult.rlpFail)
      = (if payload.length = n then
        match splitChunks payload with
        | some chunks => decodeShape init2 chunks
        | none => DecodeResult.rlpFail
      else DecodeResult.rlpFail)
    by_cases hp : payload.length = n
    · rw [if_pos hp, if_pos hp]
      cases hs : splitChunks payload with
      | none => rfl
      | some chunks => exact decodeShape_indep init1 init2 chunks h1 h2
    · rw [if_neg hp, if_neg hp]
  · rfl

/-- Witness for C9 at concrete initial arrays and buffer. -/
theorem decodedWith_indep_witness :
    Node.decodedWith (List.replicate 16 [9])
        (encodeListPayload (encodeStr [] ++ encodeStr []))
      = Node.decodedWith (List.replicate 16 [8])
        (encodeListPayload (encodeStr [] ++ encodeStr [])) :=
  decodedWith_indep _ _ _ (by decide) (by decide)

/-- Witness for C1 at the spec's leaf scenario: nibble path `[1,2,3]`,
value `"abc"`. -/
theorem decoded_encoded_roundtrip_witness :
    Node.decoded (Node.leaf [1, 2, 3] [97, 98, 99]).encoded
      = .ok (.leaf [1, 2, 3] [97, 98, 99]) :=
  decoded_encoded_roundtrip (.leaf [1, 2, 3] [97, 98, 99])
    (by unfold Node.wf; decide)

/-- Counterexample to claim C1 as stated: a `Branch` carrying the
present-but-empty value `some []` does not survive the round trip — it
comes back with value `none`. -/
theorem branch_empty_value_roundtrip_cex :
    Node.decoded (Node.branch (List.replicate 16 (encodeStr [])) (some [])).encoded
      = .ok (.branch (List.replicate 16 (encodeStr [])) none)
    ∧ Node.branch (List.replicate 16 (encodeStr [])) none
      ≠ Node.branch (List.replicate 16 (encodeStr [])) (some []) := by decide

/-- Claim C10: encoding a branch whose value is present but empty and
decoding the result yields the same 16 children with the value absent; the
round trip is not the identity on that shape. -/
theorem branch_empty_value_decodes_none (children : List (List Nat))
    (hlen : children.length = 16) (hch : ∀ c ∈ children, isChunk c = true) :
    Node.decoded (Node.branch children (some [])).encoded = .ok (.branch children none)
    ∧ Node.branch children none ≠ Node.branch children (some []) := by
  constructor
  · rw [Node.encoded]
    rw [flatten_snoc, decoded_encodeListPayload _ (mem_append_encodeStr hch [])]
    obtain ⟨b0, b1, b2, b3, b4, b5, b6, b7, b8, b9, b10, b11, b12, b13, b14, b15,
      rfl⟩ := exists_len16 children hlen
    simp only [List.cons_append, List.nil_append]
    rw [decodeShape_17 _ (by rfl), if_pos rfl]
  · simp

/-- Witness for C10 at a concrete branch. -/
theorem branch_empty_value_decodes_none_witness :
    Node.decoded (Node.branch (List.replicate 16 (encodeStr [7])) (some [])).encoded
      = .ok (.branch (List.replicate 16 (encodeStr [7])) none) :=
  (branch_empty_value_decodes_none (List.replicate 16 (encodeStr [7]))
    (by decide) (by decide)).1

/-- Claim C6: `Empty` encodes to the single empty-string token, and that
token decodes back to `Empty`. -/
theorem empty_node_canonical :
    Node.encoded .empty = encodeStr [] ∧ Node.decoded (encodeStr []) = .ok .empty :=
  ⟨rfl, rfl⟩

/-- Counterexample to claim C2 as stated: on a 3-element list the source's
decode does not return a recoverable `CorruptData` value — it reaches the
abort `panic!("Rlp is not valid.")` (the function's return type has no
error channel at all). -/
theorem decoded_list3_panic_cex :
    Node.decoded (encodeListPayload (encodeStr [] ++ encodeStr [] ++ encodeStr []))
      = .panic "Rlp is not valid." := by decide

/-- Claim C2, amended.  For every well-formed serialized input whose shape
is neither a single empty string, a 2-element list, nor a 17-element list,
decode aborts via the source's `panic!("Rlp is not valid.")` — a process
abort, not a recoverable error value — and in particular never silently
returns `Empty`. -/
theorem decoded_other_shape_panics (s : List Nat) (cs : List (List Nat))
    (hcs : ∀ c ∈ cs, isChunk c = true) :
    (s ≠ [] → Node.decoded (encodeStr s) = .panic "Rlp is not valid.")
    ∧ (cs.length ≠ 2 → cs.length ≠ 17 →
        Node.decoded (encodeListPayload cs.flatten) = .panic "Rlp is not valid."
        ∧ Node.decoded (encodeListPayload cs.flatten) ≠ .ok Node.empty) := by
  constructor
  · intro hs
    show (if s.length = s.length then
        (if s.length = 0 then DecodeResult.ok .empty
          else DecodeResult.panic "Rlp is not valid.")
      else DecodeResult.rlpFail) = DecodeResult.panic "Rlp is not valid."
    rw [if_pos rfl, if_neg (fun h0 => hs (List.length_eq_zero.mp h0))]
  · intro h2 h17
    rw [decoded_encodeListPayload cs hcs]
    unfold decodeShape
    rw [if_neg h2, if_neg h17]
    exact ⟨rfl, by simp⟩

/-- Witness for C2 at a nonempty string and a 3-element list. -/
theorem decoded_other_shape_panics_witness :
    Node.decoded (encodeStr [5]) = .panic "Rlp is not valid."
    ∧ Node.decoded
        (encodeListPayload ([encodeStr [], encodeStr [], encodeStr []]
          : List (List Nat)).flatten)
      = .panic "Rlp is not valid." := by
  have h := decoded_other_shape_panics [5] [encodeStr [], encodeStr [], encodeStr []]
    (by decide)
  exact ⟨h.1 (by decide), (h.2 (by decide) (by decide)).1⟩

theorem encoded_and_added_eq (hash : List Nat → List Nat) (n : Node) (j : Journal) :
    Node.encoded_and_added hash n j =
      if n.encoded.length ≤ 31 then (n.encoded, j)
      else Journal.new_node hash j n.encoded := by
  cases n <;> rfl

/-- Claim C3.  `encoded_and_added` returns the direct encoding with an
untouched journal exactly on the `0 ... 31`-length branch; otherwise it
returns the 32-byte content hash of the serialization and the journal
holds the `(hash, serialization)` entry. -/
theorem encoded_and_added_spec (hash : List Nat → List Nat) (j : Journal) (n : Node)
    (hlen : ∀ b, (hash b).length = 32) :
    (n.encoded.length ≤ 31 → Node.encoded_and_added hash n j = (n.encoded, j))
    ∧ (31 < n.encoded.length →
        (Node.encoded_and_added hash n j).1 = hash n.encoded
        ∧ (Node.encoded_and_added hash n j).1.length = 32
        ∧ (hash n.encoded, n.encoded) ∈ (Node.encoded_and_added hash n j).2.entries) := by
  rw [encoded_and_added_eq]
  constructor
  · intro h
    rw [if_pos h]
  · intro h
    rw [if_neg (by omega)]
    refine ⟨rfl, hlen _, ?_⟩
    show ((if (hash n.encoded, n.encoded) ∈ j.entries then j
      else ⟨(hash n.encoded, n.encoded) :: j.entries⟩) : Journal).entries.Mem _
    by_cases hm : (hash n.encoded, n.encoded) ∈ j.entries
    · rw [if_pos hm]; exact hm
    · rw [if_neg hm]; exact List.mem_cons_self _ _

/-- Witness for C3: a leaf with a 40-byte value exceeds the inline bound,
so the hash is returned and the journal entry is present. -/
theorem encoded_and_added_spec_witness :
    (Node.encoded_and_added (fun _ => List.replicate 32 0)
        (.leaf [] (List.replicate 40 7)) ⟨[]⟩).1 = List.replicate 32 0
    ∧ (List.replicate 32 0, (Node.leaf [] (List.replicate 40 7)).encoded)
        ∈ (Node.encoded_and_added (fun _ => List.replicate 32 0)
            (.leaf [] (List.replicate 40 7)) ⟨[]⟩).2.entries := by
  have h := encoded_and_added_spec (fun _ => List.replicate 32 0) ⟨[]⟩
    (.leaf [] (List.replicate 40 7)) (fun _ => rfl)
  have h2 := h.2 (by decide)
  exact ⟨h2.1, h2.2.2⟩

/-- Claim C4.  Whatever `encoded_and_added` returns — the inline direct
encoding or the hashed reference — is at most 32 bytes long. -/
theorem encoded_and_added_length_le_32 (hash : List Nat → List Nat) (j : Journal)
    (n : Node) (hlen : ∀ b, (hash b).length = 32) :
    (Node.encoded_and_added hash n j).1.length ≤ 32 := by
  rw [encoded_and_added_eq]
  by_cases h : n.encoded.length ≤ 31
  · rw [if_pos h]
    exact Nat.le_trans h (by omega)
  · rw [if_neg h]
    exact Nat.le_of_eq (hlen _)

/-- Witness for C4 on both branches: a small node and a large one. -/
theorem encoded_and_added_length_le_32_witness :
    (Node.encoded_and_added (fun _ => List.replicate 32 0)
        (.leaf [] (List.replicate 40 7)) ⟨[]⟩).1.length ≤ 32
    ∧ (Node.encoded_and_added (fun _ => List.replicate 32 0) .empty ⟨[]⟩).1.length ≤ 32 :=
  ⟨encoded_and_added_length_le_32 (fun _ => List.replicate 32 0) ⟨[]⟩
      (.leaf [] (List.replicate 40 7)) (fun _ => rfl),
    encoded_and_added_length_le_32 (fun _ => List.replicate 32 0) ⟨[]⟩
      .empty (fun _ => rfl)⟩

/-- Claim C5.  The hex-prefix codec round-trips exactly: decoding the
encoding of any nibble sequence (even or odd length) with either flag
recovers the sequence and the flag. -/
theorem hex_prefix_roundtrip (path : List Nat) (leaf : Bool)
    (h : ∀ x ∈ path, x < 16) :
    NibbleSlice.from_encoded (NibbleSlice.encoded path leaf) = some (path, leaf) :=
  hp_roundtrip path leaf h

/-- Witness for C5 at an odd-length path with the leaf flag. -/
theorem hex_prefix_roundtrip_witness :
    NibbleSlice.from_encoded (NibbleSlice.encoded [1, 2, 3] true) = some ([1, 2, 3], true) :=
  hex_prefix_roundtrip [1, 2, 3] true (by decide)

/-! The precompiled builtins of `ethcore/src/builtin.rs`. -/

/-- The 32-byte big-endian word `H256::from(&U256::from(k))` for `k < 256`. -/
def vBytes (k : Nat) : List Nat := List.replicate 31 0 ++ [k]

/-- Modelled from the spec: the 128-byte packed `InType` struct filled by
`copy_raw` (whose `H256` implementation is outside the given sources) — the
input truncated to 128 bytes and zero-padded on the right. -/
def zeroPad128 (input : List Nat) : List Nat :=
  input.take 128 ++ List.replicate (128 - input.length) 0

/-- The `hash` field of the packed `ecrecover` input. -/
def hashField (input : List Nat) : List Nat := (zeroPad128 input).take 32

/-- The `v` field of the packed `ecrecover` input. -/
def vField (input : List Nat) : List Nat := ((zeroPad128 input).drop 32).take 32

/-- The `r` field of the packed `ecrecover` input. -/
def rField (input : List Nat) : List Nat := ((zeroPad128 input).drop 64).take 32

/-- The `s` field of the packed `ecrecover` input. -/
def sField (input : List Nat) : List Nat := ((zeroPad128 input).drop 96).take 32

/-- The result-writing loop of `ecrecover`:
`for i in 0..min(32, output.len()) { output[i] = if i < 12 {0} else {r[i]} }`. -/
def writeAddr (r output : List Nat) : List Nat :=
  (List.range (min 32 output.length)).foldl
    (fun o i => o.set i (if i < 12 then 0 else r.getD i 0)) output

/-- The `ecrecover` builtin of `new_builtin_exec` in
`ethcore/src/builtin.rs`.  The elliptic-curve validity check, the recovery
function and `sha3` are external collaborators, passed as parameters.  The
body writes the result region only when `v` is 27 or 28, the signature is
valid, and recovery succeeds; on every other path it returns the output
buffer untouched. -/
def ecrecover_exec
    (ec_is_valid : List Nat → List Nat → Nat → Bool)
    (ec_recover : List Nat → List Nat → Nat → List Nat → Option (List Nat))
    (sha3 : List Nat → List Nat)
    (input output : List Nat) : List Nat :=
  if vField input = vBytes 27 ∨ vField input = vBytes 28 then
    if ec_is_valid (rField input) (sField input) ((vField input).getD 31 0 - 27) then
      match ec_recover (rField input) (sField input) ((vField input).getD 31 0 - 27)
          (hashField input) with
      | some p => writeAddr (sha3 p) output
      | none => output
    else output
  else output

theorem foldl_set_getElem?_ge (idxs : List Nat) (f : Nat → Nat) (o : List Nat)
    (i : Nat) (hb : ∀ j ∈ idxs, j < 32) (hi : 32 ≤ i) :
    (idxs.foldl (fun acc j => acc.set j (f j)) o)[i]? = o[i]? := by
  induction idxs generalizing o with
  | nil => rfl
  | cons j rest ih =>
    rw [List.foldl_cons, ih (o.set j (f j)) (fun x hx => hb x (by simp [hx]))]
    exact List.getElem?_set_ne (by have := hb j (by simp); omega)

theorem writeAddr_getElem?_ge (r output : List Nat) (i : Nat) (hi : 32 ≤ i) :
    (writeAddr r output)[i]? = output[i]? :=
  foldl_set_getElem?_ge _ _ output i
    (fun j hj => by
      have h1 := List.mem_range.mp hj
      have h2 := Nat.min_le_left 32 output.length
      omega) hi

/-- Counterexample to claim C7 as stated: on an all-zero input (`v = 0`,
an invalid signature) the builtin writes nothing at all — the output keeps
its caller-supplied `0xff` fill instead of receiving an all-zero 32-byte
result region. -/
theorem ecrecover_invalid_zero_write_cex :
    ecrecover_exec (fun _ _ _ => true) (fun _ _ _ _ => some [])
        (fun _ => List.replicate 32 1) (List.replicate 128 0) (List.replicate 33 255)
      = List.replicate 33 255
    ∧ List.replicate 33 255 ≠ List.replicate 32 0 ++ [255] := by decide

/-- Claim C7, amended.  On invalid signature fields — `v` not 27/28, an
invalid `r`/`s` pair, or failed recovery — `ecrecover` leaves the whole
output buffer at its caller-supplied fill (it writes nothing, rather than
an all-zero region); and on every path, bytes at offsets ≥ 32 are left at
their caller-supplied fill. -/
theorem ecrecover_invalid_leaves_output
    (ec_is_valid : List Nat → List Nat → Nat → Bool)
    (ec_recover : List Nat → List Nat → Nat → List Nat → Option (List Nat))
    (sha3 : List Nat → List Nat) (input output : List Nat) :
    ((vField input ≠ vBytes 27 ∧ vField input ≠ vBytes 28)
        ∨ ec_is_valid (rField input) (sField input)
            ((vField input).getD 31 0 - 27) = false
        ∨ ec_recover (rField input) (sField input) ((vField input).getD 31 0 - 27)
            (hashField input) = none
      → ecrecover_exec ec_is_valid ec_recover sha3 input output = output)
    ∧ ∀ i, 32 ≤ i →
        (ecrecover_exec ec_is_valid ec_recover sha3 input output)[i]? = output[i]? := by
  constructor
  · intro h
    unfold ecrecover_exec
    by_cases hv : vField input = vBytes 27 ∨ vField input = vBytes 28
    · rw [if_pos hv]
      rcases h with h | h | h
      · exact absurd hv (by tauto)
      · rw [if_neg (by rw [h]; exact Bool.false_ne_true)]
      · by_cases hval : ec_is_valid (rField input) (sField input)
            ((vField input).getD 31 0 - 27) = true
        · rw [if_pos hval, h]
        · rw [if_neg hval]
    · rw [if_neg hv]
  · intro i hi
    unfold ecrecover_exec
    by_cases hv : vField input = vBytes 27 ∨ vField input = vBytes 28
    · rw [if_pos hv]
      by_cases hval : ec_is_valid (rField input) (sField input)
          ((vField input).getD 31 0 - 27) = true
      · rw [if_pos hval]
        cases hr : ec_recover (rField input) (sField input)
            ((vField input).getD 31 0 - 27) (hashField input) with
        | none => rfl
        | some p => exact writeAddr_getElem?_ge (sha3 p) output i hi
      · rw [if_neg hval]
    · rw [if_neg hv]

/-- Witness for C7: empty input (so `v = 0`), output left at its fill. -/
theorem ecrecover_invalid_leaves_output_witness :
    ecrecover_exec (fun _ _ _ => false) (fun _ _ _ _ => none) (fun _ => [])
        [] (List.replicate 3 255) = List.replicate 3 255 :=
  (ecrecover_invalid_leaves_output (fun _ _ _ => false) (fun _ _ _ _ => none)
    (fun _ => []) [] (List.replicate 3 255)).1 (Or.inl (by decide))

/-- The `usize` modulus (the source targets 64-bit platforms). -/
def usizeMod : Nat := 2 ^ 64

/-- The `U256` modulus. -/
def u256Mod : Nat := 2 ^ 256

/-- The cost closure built by `Builtin::from_named_linear` in
`ethcore/src/builtin.rs`:
`U256::from(base_cost) + U256::from(word_cost) * U256::from((s + 31) / 32)`.
The word count `(s + 31) / 32` is computed in `usize` (wrapping modulo
`2^64`, the release-build overflow semantics); the product and sum are
`U256` operations (modulo `2^256`). -/
def from_named_linear_cost (base_cost word_cost s : Nat) : Nat :=
  (base_cost + word_cost * ((s + 31) % usizeMod / 32) % u256Mod) % u256Mod

/-- Counterexample to claim C8 as stated: at the valid `usize` input length
`s = 2^64 - 1` the `usize` expression `(s + 31) / 32` wraps, so the code's
cost is bare `base_cost` while `base_cost + word_cost * ceil(s/32)` is not. -/
theorem from_named_linear_cost_overflow_cex :
    from_named_linear_cost 0 1 (2 ^ 64 - 1) = 0
    ∧ 0 + 1 * ((2 ^ 64 - 1 + 31) / 32) ≠ 0 := by decide

/-- Claim C8, amended.  For `usize` costs and any input length `s` with
`s + 31` not overflowing `usize`, the cost is exactly
`base_cost + word_cost * ((s + 31) / 32)` — and `(s + 31) / 32` is
`ceil(s/32)` — computed without any wrap in exact integer arithmetic. -/
theorem from_named_linear_cost_exact (base_cost word_cost s : Nat)
    (hb : base_cost < 2 ^ 64) (hw : word_cost < 2 ^ 64) (hs : s + 31 < 2 ^ 64) :
    from_named_linear_cost base_cost word_cost s
      = base_cost + word_cost * ((s + 31) / 32) := by
  unfold from_named_linear_cost usizeMod u256Mod
  rw [Nat.mod_eq_of_lt hs]
  have hq : (s + 31) / 32 ≤ 2 ^ 64 := Nat.le_of_lt
    (Nat.lt_of_le_of_lt (Nat.div_le_self _ _) hs)
  have hm : word_cost * ((s + 31) / 32) < 2 ^ 64 * 2 ^ 64 :=
    Nat.mul_lt_mul_of_lt_of_le hw hq (by norm_num)
  rw [Nat.mod_eq_of_lt (Nat.lt_of_lt_of_le hm (by norm_num))]
  rw [Nat.mod_eq_of_lt (Nat.lt_of_lt_of_le (Nat.add_lt_add hb hm) (by norm_num))]

/-- Witness for C8 matching the repository's own `from_named_linear` test
values: base 10, word 20, length 33 gives 50. -/
theorem from_named_linear_cost_exact_witness :
    from_named_linear_cost 10 20 33 = 10 + 20 * ((33 + 31) / 32) :=
  from_named_linear_cost_exact 10 20 33 (by norm_num) (by norm_num) (by norm_num)

end Parity
